import Mathlib

/-!
Shallow embedding of the c-ringbuf ring buffer (src/ringbuf.c, src/ringbuf.h).

The backing array (the C struct field `char buf[MAX_BUF]`) is modelled as a
`List Nat` of bytes; its length plays the role of `sizeof(rb->buf)`, so the
fixed `MAX_BUF = 4096` of the source is the special case of a list of length
4096.  The `head` and `tail` pointers are modelled as byte offsets into that
list; the C pointer `ringbuf_end(rb)` (one past the end of the array)
corresponds to the offset `buf.length`.  External contiguous memory areas
(the `src`/`dst` arguments of the memcpy-style operations) are also lists of
bytes.  The `read(2)` and `write(2)` primitives are oracle functions passed
as parameters; theorems constrain them with the POSIX contract (a positive
return value reports exactly the number of bytes transferred, which is at
most the requested count).  The C `while` loops, which terminate because
each iteration transfers at least one byte, are embedded with an explicit
fuel argument that the wrappers instantiate with the total byte count.
-/

structure Ringbuf where
  buf : List Nat
  head : Nat
  tail : Nat
  deriving DecidableEq

/-- `sizeof(rb->buf)`: the size of the backing array (`MAX_BUF` in the C
source, generalized to the length of the modelled array). -/
def bufferSize (rb : Ringbuf) : Nat := rb.buf.length

/-- `ringbuf_init`: `rb->head = rb->tail = rb->buf`, i.e. both cursors at
offset 0. -/
def ringbuf_init (rb : Ringbuf) : Ringbuf := { rb with head := 0, tail := 0 }

/-- `ringbuf_capacity`: `sizeof(rb->buf) - 1`. -/
def ringbuf_capacity (rb : Ringbuf) : Nat := bufferSize rb - 1

/-- `ringbuf_bytes_free`. -/
def ringbuf_bytes_free (rb : Ringbuf) : Nat :=
  if rb.tail ≤ rb.head then ringbuf_capacity rb - (rb.head - rb.tail)
  else rb.tail - rb.head - 1

/-- `ringbuf_bytes_used`. -/
def ringbuf_bytes_used (rb : Ringbuf) : Nat :=
  ringbuf_capacity rb - ringbuf_bytes_free rb

/-- `ringbuf_is_full`. -/
def ringbuf_is_full (rb : Ringbuf) : Bool := ringbuf_bytes_free rb == 0

/-- `ringbuf_is_empty`. -/
def ringbuf_is_empty (rb : Ringbuf) : Bool :=
  ringbuf_bytes_free rb == ringbuf_capacity rb

/-- `ringbuf_smash_tail`: the fixed-up tail pointer after an overflow, one
past the (new) head, wrapping at the end of the array. -/
def ringbuf_smash_tail (rb : Ringbuf) : Nat :=
  if rb.head + 1 = bufferSize rb then 0 else rb.head + 1

/-- One `memcpy` into the backing array: overwrite `buf` at offsets
`[pos, pos + seg.length)` with the contiguous segment `seg`. -/
def writeSeg (buf : List Nat) (pos : Nat) (seg : List Nat) : List Nat :=
  buf.take pos ++ seg ++ buf.drop (pos + seg.length)

/-- The copy loop of `ringbuf_memcpy_into`.  The not-yet-copied suffix of
the source region plays the role of `src + nread` together with
`count - nread`; the loop ends when it is empty.  Each iteration copies
`n = MIN(bufend - dst->head, count - nread)` bytes to the head cursor and
wraps the cursor if it reaches the end of the array. -/
def memcpy_into_aux (size : Nat) : Nat → List Nat → Nat → List Nat → List Nat × Nat
  | 0, buf, head, _ => (buf, head)
  | fuel + 1, buf, head, src =>
    if src.isEmpty then (buf, head)
    else
      let n := min (size - head) src.length
      let buf2 := writeSeg buf head (src.take n)
      let h2 := head + n
      let head2 := if h2 = size then 0 else h2
      memcpy_into_aux size fuel buf2 head2 (src.drop n)

/-- `ringbuf_memcpy_into(dst, src, count)`: the external source region is
the list `src`, whose length is the byte count.  Returns the new state and
the returned head pointer. -/
def ringbuf_memcpy_into (dst : Ringbuf) (src : List Nat) : Ringbuf × Nat :=
  let p := memcpy_into_aux (bufferSize dst) src.length dst.buf dst.head src
  let dst2 : Ringbuf := ⟨p.1, p.2, dst.tail⟩
  let dst3 :=
    if src.length > ringbuf_bytes_free dst then
      { dst2 with tail := ringbuf_smash_tail dst2 }
    else dst2
  (dst3, dst3.head)

/-- The copy loop of `ringbuf_memcpy_from`: returns the bytes copied out
(in order) and the final tail cursor. -/
def memcpy_from_aux (size : Nat) : Nat → List Nat → Nat → Nat → List Nat × Nat
  | 0, _, tail, _ => ([], tail)
  | fuel + 1, buf, tail, count =>
    if count = 0 then ([], tail)
    else
      let n := min (size - tail) count
      let seg := (buf.drop tail).take n
      let t2 := tail + n
      let tail2 := if t2 = size then 0 else t2
      let p := memcpy_from_aux size fuel buf tail2 (count - n)
      (seg ++ p.1, p.2)

/-- `ringbuf_memcpy_from(dst, src, count)`: on underflow (`count` greater
than the used byte count) returns the null sentinel (`none`) and leaves
everything unchanged; otherwise copies `count` bytes from the tail into the
external area `dst` (at offsets `[0, count)`), advances the tail, and
returns the new tail pointer. -/
def ringbuf_memcpy_from (dst : List Nat) (src : Ringbuf) (count : Nat) :
    List Nat × Ringbuf × Option Nat :=
  if count > ringbuf_bytes_used src then (dst, src, none)
  else
    let p := memcpy_from_aux (bufferSize src) count src.buf src.tail count
    (writeSeg dst 0 p.1, { src with tail := p.2 }, some p.2)

/-- `ringbuf_read(fd, rb, count)`: the `read(2)` call is the oracle
`readPrim`, invoked once on the clamped count; it yields the C return value
and the bytes it deposited at the head cursor. -/
def ringbuf_read (readPrim : Nat → Int × List Nat) (rb : Ringbuf) (count : Nat) :
    Ringbuf × Int :=
  let nfree := ringbuf_bytes_free rb
  let count2 := min (bufferSize rb - rb.head) count
  let r := readPrim count2
  let n := r.1
  if 0 < n then
    let buf2 := writeSeg rb.buf rb.head r.2
    let h2 := rb.head + n.toNat
    let head2 := if h2 = bufferSize rb then 0 else h2
    let rb2 : Ringbuf := ⟨buf2, head2, rb.tail⟩
    if n.toNat > nfree then ({ rb2 with tail := ringbuf_smash_tail rb2 }, n)
    else (rb2, n)
  else (rb, n)

/-- `ringbuf_write(fd, rb, count)`: the `write(2)` call is the oracle
`writePrim`, invoked once on the clamped count; it yields the C return
value (the written bytes themselves do not affect the buffer state). -/
def ringbuf_write (writePrim : Nat → Int) (rb : Ringbuf) (count : Nat) :
    Ringbuf × Int :=
  if count > ringbuf_bytes_used rb then (rb, 0)
  else
    let count2 := min (bufferSize rb - rb.tail) count
    let n := writePrim count2
    if 0 < n then
      let t2 := rb.tail + n.toNat
      let tail2 := if t2 = bufferSize rb then 0 else t2
      ({ rb with tail := tail2 }, n)
    else (rb, n)

/-- The copy loop of `ringbuf_copy`: each iteration copies
`n = MIN(dst run, MIN(src run, remaining))` bytes from the source tail to
the destination head and wraps both cursors.  Returns the final destination
array, destination head, and source tail. -/
def copy_aux (ssize dsize : Nat) :
    Nat → List Nat → Nat → List Nat → Nat → Nat → List Nat × Nat × Nat
  | 0, _, stail, dbuf, dhead, _ => (dbuf, dhead, stail)
  | fuel + 1, sbuf, stail, dbuf, dhead, count =>
    if count = 0 then (dbuf, dhead, stail)
    else
      let nsrc := min (ssize - stail) count
      let n := min (dsize - dhead) nsrc
      let seg := (sbuf.drop stail).take n
      let dbuf2 := writeSeg dbuf dhead seg
      let st2 := stail + n
      let stail2 := if st2 = ssize then 0 else st2
      let dh2 := dhead + n
      let dhead2 := if dh2 = dsize then 0 else dh2
      copy_aux ssize dsize fuel sbuf stail2 dbuf2 dhead2 (count - n)

/-- `ringbuf_copy(dst, src, count)`: refuses underflow on the source side
(returns `none`); otherwise transfers `count` bytes and applies the
overflow tail smash to `dst` exactly as `ringbuf_memcpy_into` does.
Returns the new destination state, new source state, and the returned
destination head pointer. -/
def ringbuf_copy (dst src : Ringbuf) (count : Nat) :
    Ringbuf × Ringbuf × Option Nat :=
  if count > ringbuf_bytes_used src then (dst, src, none)
  else
    let overflow := count > ringbuf_bytes_free dst
    let p := copy_aux (bufferSize src) (bufferSize dst) count
               src.buf src.tail dst.buf dst.head count
    let dst2 : Ringbuf := ⟨p.1, p.2.1, dst.tail⟩
    let src2 : Ringbuf := { src with tail := p.2.2 }
    let dst3 := if overflow then { dst2 with tail := ringbuf_smash_tail dst2 } else dst2
    (dst3, src2, some dst3.head)

/-- First physical position `i` in the half-open range `[start, start + len)`
with `buf[i] = c`, scanning left to right. -/
def scanRun (buf : List Nat) (c : Nat) : Nat → Nat → Option Nat
  | _, 0 => none
  | start, len + 1 =>
    if buf.getD start 0 = c then some start else scanRun buf c (start + 1) len

/-- Modelled from the spec: the search loop of `ringbuf_findchr`, whose
implementation is missing from the provided sources (`src/ringbuf.h` has
only its declaration).  Per the spec: if `offset >= bytes_used()` return
`bytes_used()`; otherwise compute the physical start position from the
logical offset (wrapping), scan the contiguous run up to the earlier of
end-of-array or end-of-used-region, and on a miss continue the search from
the wrap point with the offset increased by the scanned run.  A hit is
reported as a logical offset from the tail.  The fuel argument witnesses
the termination of the recursion. -/
def findchrAux (rb : Ringbuf) (c : Nat) : Nat → Nat → Nat
  | _, 0 => ringbuf_bytes_used rb
  | offset, fuel + 1 =>
    let used := ringbuf_bytes_used rb
    if used ≤ offset then used
    else
      let size := bufferSize rb
      let start := (rb.tail + offset) % size
      let runLen := min (size - start) (used - offset)
      match scanRun rb.buf c start runLen with
      | some i => offset + (i - start)
      | none => findchrAux rb c (offset + runLen) fuel

/-- Modelled from the spec: `ringbuf_findchr(rb, c, offset)` (see
`findchrAux`). -/
def ringbuf_findchr (rb : Ringbuf) (c : Nat) (offset : Nat) : Nat :=
  findchrAux rb c offset (ringbuf_bytes_used rb + 1)

/-- Advance a cursor one position, wrapping to the start of the array when
it reaches one-past-the-end (the spec's `advance_cursor`). -/
def wrapInc (size p : Nat) : Nat := if p + 1 = size then 0 else p + 1

/-- Byte-at-a-time reference semantics of writing a byte sequence at the
head cursor with wraparound.  The chunked copy loops refine this. -/
def writeBytes (size : Nat) : List Nat → List Nat → Nat → List Nat × Nat
  | [], buf, h => (buf, h)
  | b :: rest, buf, h => writeBytes size rest (buf.set h b) (wrapInc size h)

/-- Byte-at-a-time reference semantics of reading `n` bytes at a cursor
with wraparound: the bytes read, and the final cursor. -/
def readBytesAcc (size : Nat) (buf : List Nat) : Nat → Nat → List Nat × Nat
  | t, 0 => ([], t)
  | t, n + 1 =>
    let p := readBytesAcc size buf (wrapInc size t) n
    (buf.getD t 0 :: p.1, p.2)

/-- The live byte at logical offset `i` from the tail. -/
def liveByte (rb : Ringbuf) (i : Nat) : Nat :=
  rb.buf.getD ((rb.tail + i) % bufferSize rb) 0

/-- The first `n` live bytes of the buffer, in FIFO order from the tail. -/
def firstLive (rb : Ringbuf) (n : Nat) : List Nat :=
  (List.range n).map (liveByte rb)

/-- Structural soundness of a ring buffer state: the backing array has at
least the reserved slot plus one usable byte, and both cursors lie strictly
inside it. -/
def Wellformed (rb : Ringbuf) : Prop :=
  2 ≤ rb.buf.length ∧ rb.head < rb.buf.length ∧ rb.tail < rb.buf.length

/-- POSIX contract for the `read(2)` oracle at request size `k`: a positive
return value reports exactly the number of deposited bytes, at most `k`. -/
def ReadOk (readPrim : Nat → Int × List Nat) (k : Nat) : Prop :=
  0 < (readPrim k).1 →
    (readPrim k).2.length = (readPrim k).1.toNat ∧ (readPrim k).1.toNat ≤ k

/-- POSIX contract for the `write(2)` oracle at request size `k`: a
positive return value is at most `k`. -/
def WriteOk (writePrim : Nat → Int) (k : Nat) : Prop :=
  0 < writePrim k → (writePrim k).toNat ≤ k

/-- States reachable from `ringbuf_init` by the operation set (with
well-behaved descriptor oracles). -/
inductive Reachable : Ringbuf → Prop where
  | init (rb : Ringbuf) (h : 2 ≤ rb.buf.length) : Reachable (ringbuf_init rb)
  | memcpy_into (rb : Ringbuf) (src : List Nat) (h : Reachable rb) :
      Reachable (ringbuf_memcpy_into rb src).1
  | memcpy_from (dst : List Nat) (rb : Ringbuf) (count : Nat) (h : Reachable rb) :
      Reachable (ringbuf_memcpy_from dst rb count).2.1
  | read (rp : Nat → Int × List Nat) (rb : Ringbuf) (count : Nat) (h : Reachable rb)
      (hok : ReadOk rp (min (bufferSize rb - rb.head) count)) :
      Reachable (ringbuf_read rp rb count).1
  | write (wp : Nat → Int) (rb : Ringbuf) (count : Nat) (h : Reachable rb)
      (hok : WriteOk wp (min (bufferSize rb - rb.tail) count)) :
      Reachable (ringbuf_write wp rb count).1
  | copy_dst (dst src : Ringbuf) (count : Nat) (hd : Reachable dst) (hs : Reachable src) :
      Reachable (ringbuf_copy dst src count).1
  | copy_src (dst src : Ringbuf) (count : Nat) (hd : Reachable dst) (hs : Reachable src) :
      Reachable (ringbuf_copy dst src count).2.1

lemma writeSeg_nil (buf : List Nat) (p : Nat) : writeSeg buf p [] = buf := by
  simp [writeSeg]

lemma writeSeg_length (buf : List Nat) (p : Nat) (seg : List Nat)
    (h : p + seg.length ≤ buf.length) :
    (writeSeg buf p seg).length = buf.length := by
  simp only [writeSeg, List.length_append, List.length_take, List.length_drop]
  omega

lemma writeSeg_cons (buf : List Nat) (p b : Nat) (rest : List Nat)
    (hp : p < buf.length) :
    writeSeg (buf.set p b) (p + 1) rest = writeSeg buf p (b :: rest) := by
  unfold writeSeg
  rw [List.set_eq_take_cons_drop _ hp]
  rw [List.take_append_eq_append_take, List.drop_append_eq_append_drop]
  have hlt : (List.take p buf).length = p := by
    rw [List.length_take]; omega
  rw [List.take_take]
  have h1 : min (p + 1) p = p := by omega
  rw [h1, hlt]
  have h2 : p + 1 - p = 1 := by omega
  have h3 : p + 1 + rest.length - p = rest.length + 1 := by omega
  rw [h2, h3]
  have h4 : (List.take p buf).drop (p + 1 + rest.length) = [] := by
    apply List.drop_eq_nil_of_le; omega
  rw [h4]
  simp only [List.take_succ_cons, List.take_zero, List.drop_succ_cons, List.nil_append,
    List.drop_drop, List.length_cons, List.cons_append, List.append_assoc,
    List.singleton_append]
  have h5 : p + 1 + rest.length = p + (rest.length + 1) := by omega
  rw [h5]

lemma wrapInc_eq_mod (size p : Nat) (hp : p < size) :
    wrapInc size p = (p + 1) % size := by
  unfold wrapInc
  by_cases h : p + 1 = size
  · simp [h, Nat.mod_self]
  · rw [if_neg h, Nat.mod_eq_of_lt (by omega)]

lemma wrapInc_lt (size p : Nat) (hp : p < size) : wrapInc size p < size := by
  unfold wrapInc
  by_cases h : p + 1 = size
  · simp [h]; omega
  · rw [if_neg h]; omega

lemma writeBytes_length (size : Nat) (bs buf : List Nat) (h : Nat) :
    (writeBytes size bs buf h).1.length = buf.length := by
  induction bs generalizing buf h with
  | nil => rfl
  | cons b rest ih => simp [writeBytes, ih, List.length_set]

lemma writeBytes_head (size : Nat) (bs buf : List Nat) (h : Nat) (hh : h < size) :
    (writeBytes size bs buf h).2 = (h + bs.length) % size := by
  induction bs generalizing buf h with
  | nil => simp [writeBytes, Nat.mod_eq_of_lt hh]
  | cons b rest ih =>
    rw [writeBytes, ih _ _ (wrapInc_lt size h hh), wrapInc_eq_mod size h hh,
      Nat.mod_add_mod]
    congr 1
    simp only [List.length_cons]
    omega

lemma writeBytes_head_lt (size : Nat) (bs buf : List Nat) (h : Nat) (hh : h < size) :
    (writeBytes size bs buf h).2 < size := by
  rw [writeBytes_head size bs buf h hh]
  exact Nat.mod_lt _ (by omega)

lemma writeBytes_append (size : Nat) (as bs buf : List Nat) (h : Nat) :
    writeBytes size (as ++ bs) buf h =
      writeBytes size bs (writeBytes size as buf h).1 (writeBytes size as buf h).2 := by
  induction as generalizing buf h with
  | nil => rfl
  | cons a rest ih => simp [writeBytes, ih]

lemma writeBytes_seg (size : Nat) (seg buf : List Nat) (h : Nat)
    (hbuf : buf.length = size) (hh : h < size) (hlen : h + seg.length ≤ size) :
    writeBytes size seg buf h =
      (writeSeg buf h seg, if h + seg.length = size then 0 else h + seg.length) := by
  induction seg generalizing buf h with
  | nil =>
    have hne : ¬ (h + ([] : List Nat).length = size) := by
      simp only [List.length_nil, Nat.add_zero]; omega
    rw [writeSeg_nil, if_neg hne]
    rfl
  | cons b rest ih =>
    rw [writeBytes, ← writeSeg_cons buf h b rest (by omega)]
    by_cases hw : h + 1 = size
    · have hr0 : rest.length = 0 := by
        simp only [List.length_cons] at hlen; omega
      have hrest : rest = [] := List.eq_nil_of_length_eq_zero hr0
      subst hrest
      have hwi : wrapInc size h = 0 := by unfold wrapInc; rw [if_pos hw]
      have hcond : h + ([b] : List Nat).length = size := by
        simp only [List.length_cons, List.length_nil]; omega
      rw [hwi, if_pos hcond, writeSeg_nil]
      rfl
    · have hh2 : h + 1 < size := by
        simp only [List.length_cons] at hlen; omega
      have hwi : wrapInc size h = h + 1 := by unfold wrapInc; rw [if_neg hw]
      have hlen2 : h + 1 + rest.length ≤ size := by
        simp only [List.length_cons] at hlen; omega
      rw [hwi, ih (buf.set h b) (h + 1) (by rw [List.length_set, hbuf]) hh2 hlen2]
      congr 1
      simp only [List.length_cons]
      by_cases hc : h + 1 + rest.length = size
      · rw [if_pos hc, if_pos (by omega)]
      · rw [if_neg hc, if_neg (by omega)]
        omega

/-- The chunked copy loop of `ringbuf_memcpy_into` computes the
byte-at-a-time reference semantics. -/
lemma memcpy_into_aux_eq (size : Nat) (fuel : Nat) (buf : List Nat) (h : Nat)
    (src : List Nat) (hbuf : buf.length = size) (hh : h < size)
    (hfuel : src.length ≤ fuel) :
    memcpy_into_aux size fuel buf h src = writeBytes size src buf h := by
  induction fuel generalizing buf h src with
  | zero =>
    have : src = [] := List.eq_nil_of_length_eq_zero (by omega)
    subst this
    rfl
  | succ fuel ih =>
    rw [memcpy_into_aux]
    by_cases hsrc : src.isEmpty
    · rw [if_pos hsrc]
      have : src = [] := List.isEmpty_iff.mp hsrc
      subst this
      rfl
    · rw [if_neg hsrc]
      have hpos : 0 < src.length := by
        cases src with
        | nil => simp at hsrc
        | cons a l => simp
      have hn1 : 1 ≤ min (size - h) src.length := by omega
      have hnle : min (size - h) src.length ≤ src.length := Nat.min_le_right _ _
      have htk : (src.take (min (size - h) src.length)).length
          = min (size - h) src.length := by
        rw [List.length_take]; omega
      have hseg := writeBytes_seg size (src.take (min (size - h) src.length)) buf h
        hbuf hh (by rw [htk]; omega)
      have hsplit : src = src.take (min (size - h) src.length)
          ++ src.drop (min (size - h) src.length) := (List.take_append_drop _ _).symm
      conv_rhs => rw [hsplit]
      rw [writeBytes_append, hseg]
      have hlen2 : (writeSeg buf h (src.take (min (size - h) src.length))).length
          = size := by
        rw [writeSeg_length buf h (src.take (min (size - h) src.length))
          (by rw [htk]; omega), hbuf]
      have hdlen : (src.drop (min (size - h) src.length)).length ≤ fuel := by
        rw [List.length_drop]; omega
      simp only [htk]
      by_cases hwrap : h + min (size - h) src.length = size
      · rw [if_pos hwrap]
        exact ih _ _ _ hlen2 (by omega) hdlen
      · rw [if_neg hwrap]
        exact ih _ _ _ hlen2 (by omega) hdlen

lemma drop_take_succ_cons (buf : List Nat) (t n : Nat) (ht : t < buf.length) :
    (buf.drop t).take (n + 1) = buf.getD t 0 :: (buf.drop (t + 1)).take n := by
  have h1 : buf.drop t = buf.getD t 0 :: buf.drop (t + 1) := by
    rw [List.drop_eq_getElem_cons ht, List.getD_eq_getElem buf 0 ht]
  rw [h1, List.take_succ_cons]

lemma readBytesAcc_seg (size : Nat) (buf : List Nat) (t n : Nat)
    (hbuf : buf.length = size) (ht : t < size) (hn : t + n ≤ size) :
    readBytesAcc size buf t n =
      ((buf.drop t).take n, if t + n = size then 0 else t + n) := by
  induction n generalizing t with
  | zero =>
    rw [if_neg (by omega)]
    rfl
  | succ n ih =>
    rw [readBytesAcc, drop_take_succ_cons buf t n (by omega)]
    by_cases hw : t + 1 = size
    · have hn0 : n = 0 := by omega
      subst hn0
      have hwi : wrapInc size t = 0 := by unfold wrapInc; rw [if_pos hw]
      rw [hwi, if_pos (by omega)]
      rfl
    · have hwi : wrapInc size t = t + 1 := by unfold wrapInc; rw [if_neg hw]
      rw [hwi, ih (t + 1) (by omega) (by omega)]
      by_cases hc : t + (n + 1) = size
      · rw [if_pos (by omega : t + 1 + n = size), if_pos hc]
      · rw [if_neg (by omega : ¬ t + 1 + n = size), if_neg hc]
        simp only [Prod.mk.injEq, true_and]
        omega

lemma readBytesAcc_append (size : Nat) (buf : List Nat) (t a b : Nat) :
    readBytesAcc size buf t (a + b) =
      ((readBytesAcc size buf t a).1
          ++ (readBytesAcc size buf (readBytesAcc size buf t a).2 b).1,
        (readBytesAcc size buf (readBytesAcc size buf t a).2 b).2) := by
  induction a generalizing t with
  | zero =>
    simp only [Nat.zero_add]
    rfl
  | succ a ih =>
    have hsa : a + 1 + b = (a + b) + 1 := by omega
    rw [hsa, readBytesAcc, ih (wrapInc size t)]
    rfl

lemma readBytesAcc_map (size : Nat) (buf : List Nat) (t n : Nat) (ht : t < size) :
    readBytesAcc size buf t n =
      ((List.range n).map (fun i => buf.getD ((t + i) % size) 0), (t + n) % size) := by
  induction n generalizing t with
  | zero =>
    simp [readBytesAcc, Nat.mod_eq_of_lt ht]
  | succ n ih =>
    rw [readBytesAcc, ih (wrapInc size t) (wrapInc_lt size t ht),
      wrapInc_eq_mod size t ht]
    simp only [Prod.mk.injEq]
    constructor
    · rw [List.range_succ_eq_map, List.map_cons, List.map_map]
      congr 1
      · rw [Nat.add_zero, Nat.mod_eq_of_lt ht]
      · apply List.map_congr_left
        intro i _
        simp only [Function.comp_apply, Nat.mod_add_mod]
        congr 2
        omega
    · rw [Nat.mod_add_mod]
      congr 1
      omega

lemma memcpy_from_aux_eq (size fuel : Nat) (buf : List Nat) (t count : Nat)
    (hbuf : buf.length = size) (ht : t < size) (hfuel : count ≤ fuel) :
    memcpy_from_aux size fuel buf t count = readBytesAcc size buf t count := by
  induction fuel generalizing t count with
  | zero =>
    have : count = 0 := by omega
    subst this
    rfl
  | succ fuel ih =>
    rw [memcpy_from_aux]
    by_cases hc : count = 0
    · subst hc
      rw [if_pos rfl]
      rfl
    · rw [if_neg hc]
      have hpos : 0 < count := by omega
      have hn1 : 1 ≤ min (size - t) count := by omega
      have hnle : min (size - t) count ≤ count := Nat.min_le_right _ _
      have hsplit : count = min (size - t) count + (count - min (size - t) count) := by
        omega
      conv_rhs => rw [hsplit]
      rw [readBytesAcc_append,
        readBytesAcc_seg size buf t (min (size - t) count) hbuf ht (by omega)]
      dsimp only
      by_cases hw : t + min (size - t) count = size
      · rw [if_pos hw, ih 0 _ (by omega) (by omega)]
      · rw [if_neg hw, ih (t + min (size - t) count) _ (by omega) (by omega)]

lemma copy_aux_eq (ssize dsize fuel : Nat) (sbuf : List Nat) (st : Nat)
    (dbuf : List Nat) (dh count : Nat)
    (hs : sbuf.length = ssize) (hst : st < ssize)
    (hd : dbuf.length = dsize) (hdh : dh < dsize) (hfuel : count ≤ fuel) :
    copy_aux ssize dsize fuel sbuf st dbuf dh count =
      ((writeBytes dsize (readBytesAcc ssize sbuf st count).1 dbuf dh).1,
        (writeBytes dsize (readBytesAcc ssize sbuf st count).1 dbuf dh).2,
        (readBytesAcc ssize sbuf st count).2) := by
  induction fuel generalizing st dbuf dh count with
  | zero =>
    have : count = 0 := by omega
    subst this
    rfl
  | succ fuel ih =>
    rw [copy_aux]
    by_cases hc : count = 0
    · subst hc
      rw [if_pos rfl]
      rfl
    · rw [if_neg hc]
      have hpos : 0 < count := by omega
      have hn1 : 1 ≤ min (dsize - dh) (min (ssize - st) count) := by omega
      have hnles : min (dsize - dh) (min (ssize - st) count) ≤ min (ssize - st) count :=
        Nat.min_le_right _ _
      have hnlec : min (dsize - dh) (min (ssize - st) count) ≤ count := by omega
      have hnst : st + min (dsize - dh) (min (ssize - st) count) ≤ ssize := by omega
      have hndh : dh + min (dsize - dh) (min (ssize - st) count) ≤ dsize := by omega
      have hsplit : count = min (dsize - dh) (min (ssize - st) count)
          + (count - min (dsize - dh) (min (ssize - st) count)) := by omega
      conv_rhs => rw [hsplit]
      rw [readBytesAcc_append,
        readBytesAcc_seg ssize sbuf st _ hs hst hnst]
      have hseglen :
          ((sbuf.drop st).take (min (dsize - dh) (min (ssize - st) count))).length
            = min (dsize - dh) (min (ssize - st) count) := by
        rw [List.length_take, List.length_drop]
        omega
      rw [writeBytes_append,
        writeBytes_seg dsize _ dbuf dh hd hdh (by rw [hseglen]; omega)]
      simp only [hseglen]
      exact ih _ _ _ _
        (by split <;> omega)
        (by rw [writeSeg_length dbuf dh _ (by rw [hseglen]; omega)]; exact hd)
        (by split <;> omega)
        (by omega)

lemma add_mod_ne (size h m : Nat) (hh : h < size) (hm1 : 0 < m) (hm2 : m < size) :
    (h + m) % size ≠ h := by
  intro he
  rcases Nat.lt_or_ge (h + m) size with hlt | hge
  · rw [Nat.mod_eq_of_lt hlt] at he
    omega
  · rw [Nat.mod_eq_sub_mod hge, Nat.mod_eq_of_lt (by omega)] at he
    omega

lemma writeBytes_get_untouched (size : Nat) (cs buf : List Nat) (h p : Nat)
    (hh : h < size) (hbuf : buf.length = size)
    (hnot : ∀ i, i < cs.length → (h + i) % size ≠ p) :
    (writeBytes size cs buf h).1.get? p = buf.get? p := by
  induction cs generalizing buf h with
  | nil => rfl
  | cons b rest ih =>
    rw [writeBytes]
    have hne : h ≠ p := by
      have h0 := hnot 0 (by simp)
      rwa [Nat.add_zero, Nat.mod_eq_of_lt hh] at h0
    rw [ih (buf.set h b) (wrapInc size h) (wrapInc_lt size h hh)
      (by rw [List.length_set, hbuf])]
    · exact List.get?_set_ne b buf hne
    · intro i hi
      rw [wrapInc_eq_mod size h hh, Nat.mod_add_mod]
      have hi1 := hnot (i + 1) (by simp only [List.length_cons]; omega)
      have he : h + 1 + i = h + (i + 1) := by omega
      rw [he]
      exact hi1

lemma writeBytes_get_new (size : Nat) (cs buf : List Nat) (h i : Nat)
    (hh : h < size) (hbuf : buf.length = size) (hcs : cs.length ≤ size)
    (hi : i < cs.length) :
    (writeBytes size cs buf h).1.get? ((h + i) % size) = cs.get? i := by
  induction cs generalizing buf h i with
  | nil => simp at hi
  | cons b rest ih =>
    rw [writeBytes]
    cases i with
    | zero =>
      have hmod : (h + 0) % size = h := by
        rw [Nat.add_zero, Nat.mod_eq_of_lt hh]
      rw [hmod, writeBytes_get_untouched size rest (buf.set h b) (wrapInc size h) h
        (wrapInc_lt size h hh) (by rw [List.length_set, hbuf])]
      · rw [List.get?_set_eq_of_lt b (by omega : h < buf.length)]
        rfl
      · intro j hj
        rw [wrapInc_eq_mod size h hh, Nat.mod_add_mod]
        have hj1 : 0 < 1 + j := by omega
        have hj2 : 1 + j < size := by
          simp only [List.length_cons] at hcs
          omega
        have he : h + 1 + j = h + (1 + j) := by omega
        rw [he]
        exact add_mod_ne size h (1 + j) hh hj1 hj2
    | succ i =>
      have hmod : (h + (i + 1)) % size = (wrapInc size h + i) % size := by
        rw [wrapInc_eq_mod size h hh, Nat.mod_add_mod]
        congr 1
        omega
      rw [hmod, ih (buf.set h b) (wrapInc size h) i (wrapInc_lt size h hh)
        (by rw [List.length_set, hbuf])
        (by simp only [List.length_cons] at hcs; omega)
        (by simp only [List.length_cons] at hi; omega)]
      rfl

lemma smash_lt (rb : Ringbuf) (hh : rb.head < bufferSize rb) :
    ringbuf_smash_tail rb < bufferSize rb := by
  unfold ringbuf_smash_tail
  split <;> omega

lemma free_le_capacity (rb : Ringbuf) (hw : Wellformed rb) :
    ringbuf_bytes_free rb ≤ ringbuf_capacity rb := by
  obtain ⟨hs2, hh, ht⟩ := hw
  unfold ringbuf_bytes_free ringbuf_capacity bufferSize at *
  split <;> omega

lemma used_add_free (rb : Ringbuf) (hw : Wellformed rb) :
    ringbuf_bytes_used rb + ringbuf_bytes_free rb = ringbuf_capacity rb := by
  have hle := free_le_capacity rb hw
  unfold ringbuf_bytes_used
  omega

lemma used_eq (rb : Ringbuf) (hw : Wellformed rb) :
    ringbuf_bytes_used rb =
      if rb.tail ≤ rb.head then rb.head - rb.tail
      else rb.head + (bufferSize rb - rb.tail) := by
  obtain ⟨hs2, hh, ht⟩ := hw
  unfold ringbuf_bytes_used ringbuf_bytes_free ringbuf_capacity bufferSize at *
  split <;> omega

lemma used_le_capacity (rb : Ringbuf) : ringbuf_bytes_used rb ≤ ringbuf_capacity rb := by
  unfold ringbuf_bytes_used
  omega

lemma used_tail_advance (rb : Ringbuf) (count : Nat) (hw : Wellformed rb)
    (hc : count ≤ ringbuf_bytes_used rb) :
    ringbuf_bytes_used ⟨rb.buf, rb.head, (rb.tail + count) % rb.buf.length⟩
      = ringbuf_bytes_used rb - count := by
  obtain ⟨hs2, hh, ht⟩ := hw
  have hcap : count ≤ rb.buf.length - 1 := by
    have := used_le_capacity rb
    unfold ringbuf_capacity bufferSize at this
    omega
  have hmod : (rb.tail + count) % rb.buf.length
      = if rb.tail + count < rb.buf.length then rb.tail + count
        else rb.tail + count - rb.buf.length := by
    split
    · exact Nat.mod_eq_of_lt (by assumption)
    · rw [Nat.mod_eq_sub_mod (by omega), Nat.mod_eq_of_lt (by omega)]
  have hu := used_eq rb ⟨hs2, hh, ht⟩
  unfold bufferSize at hu
  unfold ringbuf_bytes_used ringbuf_bytes_free ringbuf_capacity bufferSize at *
  dsimp only at *
  rw [hmod]
  split_ifs at hu hc ⊢ <;> omega

lemma free_smash (buf : List Nat) (h t0 : Nat) (hh : h < buf.length) :
    ringbuf_bytes_free ⟨buf, h, ringbuf_smash_tail ⟨buf, h, t0⟩⟩ = 0 := by
  unfold ringbuf_bytes_free ringbuf_smash_tail ringbuf_capacity bufferSize
  dsimp only
  split_ifs <;> omega

lemma wf_init (rb : Ringbuf) (hs2 : 2 ≤ rb.buf.length) : Wellformed (ringbuf_init rb) := by
  unfold Wellformed ringbuf_init
  dsimp only
  omega

lemma wf_memcpy_into (rb : Ringbuf) (src : List Nat) (hw : Wellformed rb) :
    Wellformed (ringbuf_memcpy_into rb src).1 := by
  obtain ⟨hs2, hh, ht⟩ := hw
  have hs2b : 2 ≤ bufferSize rb := hs2
  have hhb : rb.head < bufferSize rb := hh
  have htb : rb.tail < bufferSize rb := ht
  unfold ringbuf_memcpy_into
  dsimp only
  rw [memcpy_into_aux_eq (bufferSize rb) src.length rb.buf rb.head src rfl hh le_rfl]
  set w := writeBytes (bufferSize rb) src rb.buf rb.head with hwdef
  have hlen : w.1.length = bufferSize rb := writeBytes_length _ _ _ _
  have hhd : w.2 < bufferSize rb := writeBytes_head_lt _ _ _ _ hh
  have hbsx : bufferSize ⟨w.1, w.2, rb.tail⟩ = bufferSize rb := by
    unfold bufferSize
    dsimp only
    exact hlen
  by_cases hov : src.length > ringbuf_bytes_free rb
  · rw [if_pos hov]
    have hsm : ringbuf_smash_tail ⟨w.1, w.2, rb.tail⟩ < bufferSize ⟨w.1, w.2, rb.tail⟩ := by
      apply smash_lt
      show w.2 < bufferSize ⟨w.1, w.2, rb.tail⟩
      omega
    unfold Wellformed
    dsimp only
    refine ⟨by omega, by omega, by omega⟩
  · rw [if_neg hov]
    unfold Wellformed
    dsimp only
    refine ⟨by omega, by omega, by omega⟩

lemma wf_memcpy_from (dst : List Nat) (rb : Ringbuf) (count : Nat)
    (hw : Wellformed rb) :
    Wellformed (ringbuf_memcpy_from dst rb count).2.1 := by
  obtain ⟨hs2, hh, ht⟩ := hw
  have hs2b : 2 ≤ bufferSize rb := hs2
  have htb : rb.tail < bufferSize rb := ht
  unfold ringbuf_memcpy_from
  by_cases hc : count > ringbuf_bytes_used rb
  · rw [if_pos hc]
    exact ⟨hs2, hh, ht⟩
  · rw [if_neg hc]
    dsimp only
    rw [memcpy_from_aux_eq (bufferSize rb) count rb.buf rb.tail count rfl ht le_rfl,
      readBytesAcc_map (bufferSize rb) rb.buf rb.tail count ht]
    have hmod : (rb.tail + count) % bufferSize rb < bufferSize rb :=
      Nat.mod_lt _ (by omega)
    unfold Wellformed
    dsimp only
    exact ⟨hs2, hh, hmod⟩

lemma wf_read (rp : Nat → Int × List Nat) (rb : Ringbuf) (count : Nat)
    (hw : Wellformed rb) (hok : ReadOk rp (min (bufferSize rb - rb.head) count)) :
    Wellformed (ringbuf_read rp rb count).1 := by
  obtain ⟨hs2, hh, ht⟩ := hw
  have hs2b : 2 ≤ bufferSize rb := hs2
  have hhb : rb.head < bufferSize rb := hh
  have htb : rb.tail < bufferSize rb := ht
  unfold ringbuf_read
  dsimp only
  by_cases hn : 0 < (rp (min (bufferSize rb - rb.head) count)).1
  · rw [if_pos hn]
    obtain ⟨hdlen, hle⟩ := hok hn
    set m := (rp (min (bufferSize rb - rb.head) count)).1.toNat with hm
    set data := (rp (min (bufferSize rb - rb.head) count)).2 with hdata
    have hmle : m ≤ bufferSize rb - rb.head := le_trans hle (Nat.min_le_left _ _)
    set buf2 := writeSeg rb.buf rb.head data with hbuf2
    have hblen : buf2.length = bufferSize rb := by
      rw [hbuf2]
      have hsb : bufferSize rb = rb.buf.length := rfl
      have := writeSeg_length rb.buf rb.head data (by rw [hdlen]; omega)
      exact this
    set h2v := (if rb.head + m = bufferSize rb then 0 else rb.head + m) with hh2v
    have hh2lt : h2v < bufferSize rb := by
      rw [hh2v]
      split <;> omega
    have hbsx : bufferSize ⟨buf2, h2v, rb.tail⟩ = bufferSize rb := by
      unfold bufferSize
      dsimp only
      exact hblen
    by_cases hov : m > ringbuf_bytes_free rb
    · rw [if_pos hov]
      have hsm : ringbuf_smash_tail ⟨buf2, h2v, rb.tail⟩
          < bufferSize ⟨buf2, h2v, rb.tail⟩ := by
        apply smash_lt
        show h2v < bufferSize ⟨buf2, h2v, rb.tail⟩
        omega
      unfold Wellformed
      dsimp only
      refine ⟨by omega, by omega, by omega⟩
    · rw [if_neg hov]
      unfold Wellformed
      dsimp only
      refine ⟨by omega, by omega, by omega⟩
  · rw [if_neg hn]
    exact ⟨hs2, hh, ht⟩

lemma wf_write (wp : Nat → Int) (rb : Ringbuf) (count : Nat)
    (hw : Wellformed rb) (hok : WriteOk wp (min (bufferSize rb - rb.tail) count)) :
    Wellformed (ringbuf_write wp rb count).1 := by
  obtain ⟨hs2, hh, ht⟩ := hw
  have hs2b : 2 ≤ bufferSize rb := hs2
  have htb : rb.tail < bufferSize rb := ht
  unfold ringbuf_write
  by_cases hc : count > ringbuf_bytes_used rb
  · rw [if_pos hc]
    exact ⟨hs2, hh, ht⟩
  · rw [if_neg hc]
    dsimp only
    by_cases hn : 0 < wp (min (bufferSize rb - rb.tail) count)
    · rw [if_pos hn]
      have hle := hok hn
      have hmle : (wp (min (bufferSize rb - rb.tail) count)).toNat
          ≤ bufferSize rb - rb.tail := le_trans hle (Nat.min_le_left _ _)
      unfold Wellformed
      dsimp only
      refine ⟨hs2, hh, ?_⟩
      show (if rb.tail + (wp (min (bufferSize rb - rb.tail) count)).toNat = bufferSize rb
          then 0
          else rb.tail + (wp (min (bufferSize rb - rb.tail) count)).toNat) < rb.buf.length
      have hsb : bufferSize rb = rb.buf.length := rfl
      split <;> omega
    · rw [if_neg hn]
      exact ⟨hs2, hh, ht⟩

lemma wf_copy (dst src : Ringbuf) (count : Nat) (hwd : Wellformed dst)
    (hws : Wellformed src) :
    Wellformed (ringbuf_copy dst src count).1
      ∧ Wellformed (ringbuf_copy dst src count).2.1 := by
  obtain ⟨hds2, hdh, hdt⟩ := hwd
  obtain ⟨hss2, hsh, hst⟩ := hws
  have hds2b : 2 ≤ bufferSize dst := hds2
  have hdhb : dst.head < bufferSize dst := hdh
  have hdtb : dst.tail < bufferSize dst := hdt
  have hss2b : 2 ≤ bufferSize src := hss2
  have hshb : src.head < bufferSize src := hsh
  have hstb : src.tail < bufferSize src := hst
  unfold ringbuf_copy
  by_cases hc : count > ringbuf_bytes_used src
  · rw [if_pos hc]
    exact ⟨⟨hds2, hdh, hdt⟩, ⟨hss2, hsh, hst⟩⟩
  · rw [if_neg hc]
    dsimp only
    rw [copy_aux_eq (bufferSize src) (bufferSize dst) count src.buf src.tail
      dst.buf dst.head count rfl hst rfl hdh le_rfl]
    set bs := (readBytesAcc (bufferSize src) src.buf src.tail count).1 with hbs
    set w := writeBytes (bufferSize dst) bs dst.buf dst.head with hwdef
    have hwlen : w.1.length = bufferSize dst := writeBytes_length _ _ _ _
    have hwhd : w.2 < bufferSize dst := writeBytes_head_lt _ _ _ _ hdh
    have hstl : (readBytesAcc (bufferSize src) src.buf src.tail count).2
        < bufferSize src := by
      rw [readBytesAcc_map (bufferSize src) src.buf src.tail count hst]
      exact Nat.mod_lt _ (by omega)
    have hbsx : bufferSize ⟨w.1, w.2, dst.tail⟩ = bufferSize dst := by
      unfold bufferSize
      dsimp only
      exact hwlen
    constructor
    · by_cases hov : count > ringbuf_bytes_free dst
      · rw [if_pos hov]
        have hsm : ringbuf_smash_tail ⟨w.1, w.2, dst.tail⟩
            < bufferSize ⟨w.1, w.2, dst.tail⟩ := by
          apply smash_lt
          show w.2 < bufferSize ⟨w.1, w.2, dst.tail⟩
          omega
        unfold Wellformed
        dsimp only
        refine ⟨by omega, by omega, by omega⟩
      · rw [if_neg hov]
        unfold Wellformed
        dsimp only
        refine ⟨by omega, by omega, by omega⟩
    · unfold Wellformed
      dsimp only
      refine ⟨hss2, hsh, hstl⟩

lemma reachable_wf (rb : Ringbuf) (h : Reachable rb) : Wellformed rb := by
  induction h with
  | init rb hs2 => exact wf_init rb hs2
  | memcpy_into rb src h ih => exact wf_memcpy_into rb src ih
  | memcpy_from dst rb count h ih => exact wf_memcpy_from dst rb count ih
  | read rp rb count h hok ih => exact wf_read rp rb count ih hok
  | write wp rb count h hok ih => exact wf_write wp rb count ih hok
  | copy_dst dst src count hd hs ihd ihs => exact (wf_copy dst src count ihd ihs).1
  | copy_src dst src count hd hs ihd ihs => exact (wf_copy dst src count ihd ihs).2

/-- C2: for every reachable ring buffer state (any sequence of operations
starting from init/reset), `bytes_used() + bytes_free() == capacity()`. -/
theorem claim_C2_conservation (rb : Ringbuf) (h : Reachable rb) :
    ringbuf_bytes_used rb + ringbuf_bytes_free rb = ringbuf_capacity rb :=
  used_add_free rb (reachable_wf rb h)

/-- C2 witness: the conservation law at a concrete reachable state. -/
theorem claim_C2_conservation_witness :
    ringbuf_bytes_used (ringbuf_memcpy_into (ringbuf_init ⟨[9, 9, 9, 9], 2, 3⟩) [5, 6]).1
        + ringbuf_bytes_free (ringbuf_memcpy_into (ringbuf_init ⟨[9, 9, 9, 9], 2, 3⟩) [5, 6]).1
      = ringbuf_capacity (ringbuf_memcpy_into (ringbuf_init ⟨[9, 9, 9, 9], 2, 3⟩) [5, 6]).1 :=
  claim_C2_conservation _
    (Reachable.memcpy_into _ [5, 6] (Reachable.init ⟨[9, 9, 9, 9], 2, 3⟩ (by decide)))

/-- C5: before and after every operation (i.e. in every reachable state),
both cursors lie strictly within the backing array, i.e. are offsets in
`[0, S)`. -/
theorem claim_C5_cursor_bounds (rb : Ringbuf) (h : Reachable rb) :
    rb.head < rb.buf.length ∧ rb.tail < rb.buf.length :=
  ⟨(reachable_wf rb h).2.1, (reachable_wf rb h).2.2⟩

/-- C5 witness: cursor bounds at a concrete reachable state (after a
wrapping overflow write). -/
theorem claim_C5_cursor_bounds_witness :
    (ringbuf_memcpy_into (ringbuf_init ⟨[9, 9, 9], 0, 0⟩) [1, 2, 3, 4]).1.head
        < (ringbuf_memcpy_into (ringbuf_init ⟨[9, 9, 9], 0, 0⟩) [1, 2, 3, 4]).1.buf.length
      ∧ (ringbuf_memcpy_into (ringbuf_init ⟨[9, 9, 9], 0, 0⟩) [1, 2, 3, 4]).1.tail
        < (ringbuf_memcpy_into (ringbuf_init ⟨[9, 9, 9], 0, 0⟩) [1, 2, 3, 4]).1.buf.length :=
  claim_C5_cursor_bounds _
    (Reachable.memcpy_into _ [1, 2, 3, 4] (Reachable.init ⟨[9, 9, 9], 0, 0⟩ (by decide)))

/-- C3: for every state and every `count > bytes_used()`, each of
`ringbuf_memcpy_from`, `ringbuf_write` and `ringbuf_copy` (underflow on the
source side) returns the zero/null sentinel and performs no side effect:
the state (cursors and stored bytes) and the external area are unchanged. -/
theorem claim_C3_underflow_noop (rb : Ringbuf) (count : Nat) (dst : List Nat)
    (wp : Nat → Int) (d2 : Ringbuf) (h : count > ringbuf_bytes_used rb) :
    ringbuf_memcpy_from dst rb count = (dst, rb, none)
      ∧ ringbuf_write wp rb count = (rb, 0)
      ∧ ringbuf_copy d2 rb count = (d2, rb, none) := by
  refine ⟨?_, ?_, ?_⟩
  · unfold ringbuf_memcpy_from
    rw [if_pos h]
  · unfold ringbuf_write
    rw [if_pos h]
  · unfold ringbuf_copy
    rw [if_pos h]

/-- C3 witness: underflow no-op at a concrete state and count. -/
theorem claim_C3_underflow_noop_witness :
    ringbuf_memcpy_from [7] ⟨[0, 0], 0, 0⟩ 1 = ([7], ⟨[0, 0], 0, 0⟩, none)
      ∧ ringbuf_write (fun _ => 1) ⟨[0, 0], 0, 0⟩ 1 = (⟨[0, 0], 0, 0⟩, 0)
      ∧ ringbuf_copy ⟨[9, 9], 1, 0⟩ ⟨[0, 0], 0, 0⟩ 1
        = (⟨[9, 9], 1, 0⟩, ⟨[0, 0], 0, 0⟩, none) :=
  claim_C3_underflow_noop ⟨[0, 0], 0, 0⟩ 1 [7] (fun _ => 1) ⟨[9, 9], 1, 0⟩ (by decide)

/-- C6: `bytes_free()` is `capacity - (head - tail)` when the head is at or
after the tail, and `tail - head - 1` when the tail is ahead (the live
region wraps); stated over the integers so that no truncation is hidden. -/
theorem claim_C6_bytes_free_formula (rb : Ringbuf) (hw : Wellformed rb) :
    (rb.tail ≤ rb.head →
      (ringbuf_bytes_free rb : Int)
        = ringbuf_capacity rb - ((rb.head : Int) - rb.tail))
    ∧ (rb.head < rb.tail →
      (ringbuf_bytes_free rb : Int) = (rb.tail : Int) - rb.head - 1) := by
  obtain ⟨hs2, hh, ht⟩ := hw
  unfold ringbuf_bytes_free ringbuf_capacity bufferSize
  constructor
  · intro hle
    rw [if_pos hle]
    omega
  · intro hlt
    rw [if_neg (by omega)]
    omega

/-- C6 witness: the formula at a concrete wrapped state. -/
theorem claim_C6_bytes_free_formula_witness :
    ((⟨[0, 0, 0], 2, 1⟩ : Ringbuf).tail ≤ (⟨[0, 0, 0], 2, 1⟩ : Ringbuf).head →
      (ringbuf_bytes_free ⟨[0, 0, 0], 2, 1⟩ : Int)
        = ringbuf_capacity ⟨[0, 0, 0], 2, 1⟩
          - (((⟨[0, 0, 0], 2, 1⟩ : Ringbuf).head : Int)
              - (⟨[0, 0, 0], 2, 1⟩ : Ringbuf).tail))
    ∧ ((⟨[0, 0, 0], 2, 1⟩ : Ringbuf).head < (⟨[0, 0, 0], 2, 1⟩ : Ringbuf).tail →
      (ringbuf_bytes_free ⟨[0, 0, 0], 2, 1⟩ : Int)
        = ((⟨[0, 0, 0], 2, 1⟩ : Ringbuf).tail : Int)
          - (⟨[0, 0, 0], 2, 1⟩ : Ringbuf).head - 1) :=
  claim_C6_bytes_free_formula ⟨[0, 0, 0], 2, 1⟩ ⟨by decide, by decide, by decide⟩

/-- C10: a zero-byte `ringbuf_memcpy_from` always succeeds, returning the
current tail pointer (a success value distinct from the `0` underflow
sentinel) and leaving the external area, the cursors and the stored bytes
unchanged, even on an empty buffer. -/
theorem claim_C10_zero_count_from (dst : List Nat) (rb : Ringbuf) :
    ringbuf_memcpy_from dst rb 0 = (dst, rb, some rb.tail) := by
  unfold ringbuf_memcpy_from
  rw [if_neg (by omega)]
  dsimp only
  rw [memcpy_from_aux, writeSeg_nil]

/-- C1: for a freshly reset ring buffer and every byte sequence `A` with
`len(A) <= capacity()`, `ringbuf_memcpy_into` of `A` followed by
`ringbuf_memcpy_from` of `len(A)` bytes reproduces exactly `A` at the
start of the destination area and returns the buffer to
`is_empty() == true`. -/
theorem claim_C1_roundtrip (rb0 : Ringbuf) (A dst : List Nat)
    (hs2 : 2 ≤ rb0.buf.length)
    (hlen : A.length ≤ ringbuf_capacity (ringbuf_init rb0)) :
    (ringbuf_memcpy_from dst
        (ringbuf_memcpy_into (ringbuf_init rb0) A).1 A.length).1.take A.length = A
    ∧ ringbuf_is_empty (ringbuf_memcpy_from dst
        (ringbuf_memcpy_into (ringbuf_init rb0) A).1 A.length).2.1 = true := by
  have hinit : ringbuf_init rb0 = ⟨rb0.buf, 0, 0⟩ := rfl
  rw [hinit]
  rw [hinit] at hlen
  set B := rb0.buf with hB
  have hA : A.length ≤ B.length - 1 := hlen
  have h0 : (0 : Nat) < B.length := by omega
  have hfree0 : ringbuf_bytes_free ⟨B, 0, 0⟩ = B.length - 1 := by
    unfold ringbuf_bytes_free ringbuf_capacity bufferSize
    dsimp only
    rw [if_pos (le_refl 0)]
    omega
  have hinto : ringbuf_memcpy_into ⟨B, 0, 0⟩ A
      = (⟨A ++ B.drop A.length, A.length, 0⟩, A.length) := by
    unfold ringbuf_memcpy_into
    dsimp only
    rw [memcpy_into_aux_eq (bufferSize ⟨B, 0, 0⟩) A.length B 0 A rfl h0 le_rfl,
      writeBytes_seg (bufferSize ⟨B, 0, 0⟩) A B 0 rfl h0
        (by show 0 + A.length ≤ B.length; omega)]
    rw [if_neg (by rw [hfree0]; omega)]
    rw [if_neg (by show ¬ (0 + A.length = bufferSize ⟨B, 0, 0⟩)
                   show ¬ (0 + A.length = B.length)
                   omega)]
    dsimp only
    unfold writeSeg
    simp
  rw [hinto]
  have hlen1 : (A ++ B.drop A.length).length = B.length := by
    rw [List.length_append, List.length_drop]
    omega
  have hused1 : ringbuf_bytes_used ⟨A ++ B.drop A.length, A.length, 0⟩ = A.length := by
    unfold ringbuf_bytes_used ringbuf_bytes_free ringbuf_capacity bufferSize
    dsimp only
    rw [if_pos (by omega)]
    rw [hlen1]
    omega
  have htake : (A ++ B.drop A.length).take A.length = A := List.take_left A _
  have hfrom : ringbuf_memcpy_from dst ⟨A ++ B.drop A.length, A.length, 0⟩ A.length
      = (A ++ dst.drop A.length,
          ⟨A ++ B.drop A.length, A.length, A.length⟩, some A.length) := by
    unfold ringbuf_memcpy_from
    rw [if_neg (by rw [hused1]; omega)]
    dsimp only
    rw [memcpy_from_aux_eq (bufferSize ⟨A ++ B.drop A.length, A.length, 0⟩) A.length
        (A ++ B.drop A.length) 0 A.length rfl (by show 0 < (A ++ B.drop A.length).length; omega)
        le_rfl,
      readBytesAcc_seg (bufferSize ⟨A ++ B.drop A.length, A.length, 0⟩)
        (A ++ B.drop A.length) 0 A.length rfl
        (by show 0 < (A ++ B.drop A.length).length; omega)
        (by show 0 + A.length ≤ (A ++ B.drop A.length).length; omega)]
    rw [if_neg (by show ¬ (0 + A.length
                      = bufferSize ⟨A ++ B.drop A.length, A.length, 0⟩)
                   show ¬ (0 + A.length = (A ++ B.drop A.length).length)
                   rw [hlen1]
                   omega)]
    dsimp only
    rw [List.drop_zero, htake]
    unfold writeSeg
    simp
  rw [hfrom]
  constructor
  · exact List.take_left A _
  · unfold ringbuf_is_empty ringbuf_bytes_free ringbuf_capacity bufferSize
    dsimp only
    rw [if_pos (le_refl A.length)]
    simp

/-- C7: `ringbuf_read` clamps the count to the contiguous run from the
head to the end of the backing array (so the single read call it issues
never crosses the wrap boundary), returns the primitive result verbatim;
on a positive result `n` it deposits the bytes at the head, advances the
head by `n` (wrapping to the array start exactly when it reaches
one-past-the-end) and smashes the tail to one past the new head exactly
when `n` exceeded the free byte count measured before the call; on a zero
or negative result the state is unchanged. -/
theorem claim_C7_read_once (rp : Nat → Int × List Nat) (rb : Ringbuf)
    (count c2 : Nat) (n : Int) (data : List Nat) (hw : Wellformed rb)
    (hc2 : c2 = min (bufferSize rb - rb.head) count)
    (hcall : rp c2 = (n, data))
    (hok : 0 < n → data.length = n.toNat ∧ n.toNat ≤ c2) :
    rb.head + c2 ≤ bufferSize rb
    ∧ (ringbuf_read rp rb count).2 = n
    ∧ (n ≤ 0 → (ringbuf_read rp rb count).1 = rb)
    ∧ (0 < n →
        (ringbuf_read rp rb count).1.buf = writeSeg rb.buf rb.head data
        ∧ (ringbuf_read rp rb count).1.head
            = (if rb.head + n.toNat = bufferSize rb then 0 else rb.head + n.toNat)
        ∧ (ringbuf_read rp rb count).1.tail
            = (if n.toNat > ringbuf_bytes_free rb
               then (if (ringbuf_read rp rb count).1.head + 1 = bufferSize rb
                     then 0
                     else (ringbuf_read rp rb count).1.head + 1)
               else rb.tail)) := by
  obtain ⟨hs2, hh, ht⟩ := hw
  have hhb : rb.head < bufferSize rb := hh
  have hclamp : rb.head + c2 ≤ bufferSize rb := by
    rw [hc2]
    have := Nat.min_le_left (bufferSize rb - rb.head) count
    omega
  refine ⟨hclamp, ?_⟩
  have hread : ringbuf_read rp rb count
      = (if 0 < n then
          (if n.toNat > ringbuf_bytes_free rb then
            ({ (⟨writeSeg rb.buf rb.head data,
                if rb.head + n.toNat = bufferSize rb then 0
                else rb.head + n.toNat, rb.tail⟩ : Ringbuf) with
              tail := ringbuf_smash_tail ⟨writeSeg rb.buf rb.head data,
                if rb.head + n.toNat = bufferSize rb then 0
                else rb.head + n.toNat, rb.tail⟩ }, n)
          else (⟨writeSeg rb.buf rb.head data,
                if rb.head + n.toNat = bufferSize rb then 0
                else rb.head + n.toNat, rb.tail⟩, n))
        else (rb, n)) := by
    unfold ringbuf_read
    rw [← hc2]
    dsimp only
    rw [hcall]
  rw [hread]
  by_cases hn : 0 < n
  · rw [if_pos hn]
    obtain ⟨hdlen, hle⟩ := hok hn
    have hblen : (writeSeg rb.buf rb.head data).length = rb.buf.length := by
      apply writeSeg_length
      have hbs : bufferSize rb = rb.buf.length := rfl
      omega
    have hh2 : (if rb.head + n.toNat = bufferSize rb then 0
        else rb.head + n.toNat) < bufferSize rb := by
      split <;> omega
    refine ⟨?_, ?_, ?_⟩
    · split <;> rfl
    · intro hle0
      omega
    · intro _
      by_cases hov : n.toNat > ringbuf_bytes_free rb
      · rw [if_pos hov, if_pos hov]
        dsimp only
        unfold ringbuf_smash_tail bufferSize
        dsimp only
        have hbs : bufferSize rb = rb.buf.length := rfl
        rw [hblen]
        exact ⟨rfl, rfl, rfl⟩
      · rw [if_neg hov, if_neg hov]
        exact ⟨rfl, rfl, rfl⟩
  · rw [if_neg hn]
    refine ⟨rfl, fun _ => rfl, fun hpos => absurd hpos hn⟩

/-- C7 witness: the read contract at a concrete state and oracle. -/
theorem claim_C7_read_once_witness :
    (⟨[9, 9, 9], 0, 0⟩ : Ringbuf).head + 2 ≤ bufferSize ⟨[9, 9, 9], 0, 0⟩
    ∧ (ringbuf_read (fun _ => (1, [5])) ⟨[9, 9, 9], 0, 0⟩ 2).2 = 1
    ∧ ((1 : Int) ≤ 0 →
        (ringbuf_read (fun _ => (1, [5])) ⟨[9, 9, 9], 0, 0⟩ 2).1 = ⟨[9, 9, 9], 0, 0⟩)
    ∧ ((0 : Int) < 1 →
        (ringbuf_read (fun _ => (1, [5])) ⟨[9, 9, 9], 0, 0⟩ 2).1.buf
            = writeSeg [9, 9, 9] 0 [5]
        ∧ (ringbuf_read (fun _ => (1, [5])) ⟨[9, 9, 9], 0, 0⟩ 2).1.head
            = (if 0 + (1 : Int).toNat = bufferSize ⟨[9, 9, 9], 0, 0⟩ then 0
               else 0 + (1 : Int).toNat)
        ∧ (ringbuf_read (fun _ => (1, [5])) ⟨[9, 9, 9], 0, 0⟩ 2).1.tail
            = (if (1 : Int).toNat > ringbuf_bytes_free ⟨[9, 9, 9], 0, 0⟩
               then (if (ringbuf_read (fun _ => (1, [5])) ⟨[9, 9, 9], 0, 0⟩ 2).1.head + 1
                     = bufferSize ⟨[9, 9, 9], 0, 0⟩ then 0
                     else (ringbuf_read (fun _ => (1, [5])) ⟨[9, 9, 9], 0, 0⟩ 2).1.head + 1)
               else 0)) :=
  claim_C7_read_once (fun _ => (1, [5])) ⟨[9, 9, 9], 0, 0⟩ 2 2 1 [5]
    ⟨by decide, by decide, by decide⟩ (by decide) rfl (by decide)

/-- C4: writing `capacity() + k` bytes (`k >= 1`) into an empty buffer
(head = tail, at any position) leaves it exactly full, with the head right
after the last byte written (mod wrap), the tail one position past the
head (wrapping), and the surviving live content equal to exactly the last
`capacity()` bytes of the source sequence. -/
theorem claim_C4_overflow_eviction (buf src : List Nat) (t k : Nat)
    (hs2 : 2 ≤ buf.length) (ht : t < buf.length) (hk : 1 ≤ k)
    (hsrc : src.length = (buf.length - 1) + k) :
    ringbuf_is_full (ringbuf_memcpy_into ⟨buf, t, t⟩ src).1 = true
    ∧ (ringbuf_memcpy_into ⟨buf, t, t⟩ src).1.head = (t + src.length) % buf.length
    ∧ (ringbuf_memcpy_into ⟨buf, t, t⟩ src).1.tail
        = ((ringbuf_memcpy_into ⟨buf, t, t⟩ src).1.head + 1) % buf.length
    ∧ ∀ i, i < buf.length - 1 →
        (ringbuf_memcpy_into ⟨buf, t, t⟩ src).1.buf.getD
            (((ringbuf_memcpy_into ⟨buf, t, t⟩ src).1.tail + i) % buf.length) 0
          = src.getD (src.length - (buf.length - 1) + i) 0 := by
  have hfree : ringbuf_bytes_free ⟨buf, t, t⟩ = buf.length - 1 := by
    unfold ringbuf_bytes_free ringbuf_capacity bufferSize
    dsimp only
    rw [if_pos le_rfl]
    omega
  have hbs : bufferSize ⟨buf, t, t⟩ = buf.length := rfl
  have hinto : (ringbuf_memcpy_into ⟨buf, t, t⟩ src).1
      = ⟨(writeBytes (bufferSize ⟨buf, t, t⟩) src buf t).1,
          (writeBytes (bufferSize ⟨buf, t, t⟩) src buf t).2,
          ringbuf_smash_tail ⟨(writeBytes (bufferSize ⟨buf, t, t⟩) src buf t).1,
            (writeBytes (bufferSize ⟨buf, t, t⟩) src buf t).2, t⟩⟩ := by
    unfold ringbuf_memcpy_into
    dsimp only
    rw [memcpy_into_aux_eq (bufferSize ⟨buf, t, t⟩) src.length buf t src rfl ht le_rfl]
    rw [if_pos (by rw [hfree]; omega)]
  rw [hbs] at hinto
  rw [hinto]
  set w := writeBytes buf.length src buf t with hwdef
  have hwlen : w.1.length = buf.length := writeBytes_length _ _ _ _
  have hwhd : w.2 = (t + src.length) % buf.length := writeBytes_head _ _ _ _ ht
  have hwlt : w.2 < buf.length := writeBytes_head_lt _ _ _ _ ht
  have hsm : ringbuf_smash_tail ⟨w.1, w.2, t⟩ = (w.2 + 1) % buf.length := by
    unfold ringbuf_smash_tail bufferSize
    dsimp only
    rw [hwlen]
    by_cases hcase : w.2 + 1 = buf.length
    · rw [if_pos hcase, hcase, Nat.mod_self]
    · rw [if_neg hcase, Nat.mod_eq_of_lt (by omega)]
  refine ⟨?_, ?_, ?_, ?_⟩
  · unfold ringbuf_is_full
    rw [free_smash w.1 w.2 t (by omega)]
    rfl
  · exact hwhd
  · exact hsm
  · intro i hi
    dsimp only
    rw [hsm]
    have hSle : buf.length ≤ src.length := by omega
    set pre := src.take (src.length - buf.length) with hpre
    set suf := src.drop (src.length - buf.length) with hsuf
    have hpre_len : pre.length = src.length - buf.length := by
      rw [hpre, List.length_take]
      omega
    have hsuf_len : suf.length = buf.length := by
      rw [hsuf, List.length_drop]
      omega
    have hsplit : src = pre ++ suf := (List.take_append_drop _ _).symm
    set w1 := writeBytes buf.length pre buf t with hw1def
    have hw1len : w1.1.length = buf.length := writeBytes_length _ _ _ _
    have hw1hd : w1.2 = (t + pre.length) % buf.length := writeBytes_head _ _ _ _ ht
    have hw1lt : w1.2 < buf.length := writeBytes_head_lt _ _ _ _ ht
    have hW : w = writeBytes buf.length suf w1.1 w1.2 := by
      rw [hwdef]
      conv_lhs => rw [hsplit]
      rw [writeBytes_append]
    have hidx : ((w.2 + 1) % buf.length + i) % buf.length
        = (w1.2 + (1 + i)) % buf.length := by
      rw [Nat.mod_add_mod, hwhd, hw1hd, Nat.add_assoc, Nat.mod_add_mod,
        Nat.mod_add_mod]
      have harith : t + src.length + (1 + i)
          = t + pre.length + (1 + i) + buf.length := by
        rw [hpre_len]
        omega
      rw [harith, Nat.add_mod_right]
    rw [hidx, hW]
    have hget := writeBytes_get_new buf.length suf w1.1 w1.2 (1 + i) hw1lt hw1len
      (by omega) (by omega)
    have hsufget : suf.get? (1 + i) = src.get? (src.length - buf.length + (1 + i)) := by
      rw [hsuf, List.get?_drop]
    show ((writeBytes buf.length suf w1.1 w1.2).1.get?
        ((w1.2 + (1 + i)) % buf.length)).getD 0
      = (src.get? (src.length - (buf.length - 1) + i)).getD 0
    rw [hget, hsufget]
    congr 2
    omega

/-- C4 witness: overflow by one byte on a size-3 buffer starting at a
non-zero cursor. -/
theorem claim_C4_overflow_eviction_witness :
    ringbuf_is_full (ringbuf_memcpy_into ⟨[9, 9, 9], 1, 1⟩ [1, 2, 3]).1 = true
    ∧ (ringbuf_memcpy_into ⟨[9, 9, 9], 1, 1⟩ [1, 2, 3]).1.head
        = (1 + [1, 2, 3].length) % [9, 9, 9].length
    ∧ (ringbuf_memcpy_into ⟨[9, 9, 9], 1, 1⟩ [1, 2, 3]).1.tail
        = ((ringbuf_memcpy_into ⟨[9, 9, 9], 1, 1⟩ [1, 2, 3]).1.head + 1)
            % [9, 9, 9].length
    ∧ ∀ i, i < [9, 9, 9].length - 1 →
        (ringbuf_memcpy_into ⟨[9, 9, 9], 1, 1⟩ [1, 2, 3]).1.buf.getD
            (((ringbuf_memcpy_into ⟨[9, 9, 9], 1, 1⟩ [1, 2, 3]).1.tail + i)
              % [9, 9, 9].length) 0
          = [1, 2, 3].getD ([1, 2, 3].length - ([9, 9, 9].length - 1) + i) 0 :=
  claim_C4_overflow_eviction [9, 9, 9] [1, 2, 3] 1 1 (by decide) (by decide)
    (by decide) (by decide)

/-- C8: for `count <= src.bytes_used()`, `ringbuf_copy` moves exactly the
first `count` live bytes of `src` (FIFO order from its tail) into `dst` at
its head — it returns the same destination state and head pointer as
`ringbuf_memcpy_into` of those bytes — while advancing the source tail by
`count` (mod wrap), decreasing the source `bytes_used()` by exactly
`count`; when `count` exceeded the destination free count beforehand, the
destination ends exactly full. -/
theorem claim_C8_copy_is_into_of_live (dst src : Ringbuf) (count : Nat)
    (hwd : Wellformed dst) (hws : Wellformed src)
    (hc : count ≤ ringbuf_bytes_used src) :
    ringbuf_copy dst src count
      = ((ringbuf_memcpy_into dst (firstLive src count)).1,
          ⟨src.buf, src.head, (src.tail + count) % bufferSize src⟩,
          some (ringbuf_memcpy_into dst (firstLive src count)).1.head)
    ∧ ringbuf_bytes_used ⟨src.buf, src.head, (src.tail + count) % bufferSize src⟩
        = ringbuf_bytes_used src - count
    ∧ (count > ringbuf_bytes_free dst →
        ringbuf_is_full (ringbuf_copy dst src count).1 = true) := by
  obtain ⟨hds2, hdh, hdt⟩ := hwd
  obtain ⟨hss2, hsh, hst⟩ := hws
  have hfl : (firstLive src count).length = count := by
    unfold firstLive
    rw [List.length_map, List.length_range]
  have hmapeq : (readBytesAcc (bufferSize src) src.buf src.tail count).1
      = firstLive src count := by
    rw [readBytesAcc_map (bufferSize src) src.buf src.tail count hst]
    rfl
  have htail2 : (readBytesAcc (bufferSize src) src.buf src.tail count).2
      = (src.tail + count) % bufferSize src := by
    rw [readBytesAcc_map (bufferSize src) src.buf src.tail count hst]
  have hinto : ringbuf_memcpy_into dst (firstLive src count)
      = (if count > ringbuf_bytes_free dst then
          ({ (⟨(writeBytes (bufferSize dst) (firstLive src count) dst.buf dst.head).1,
              (writeBytes (bufferSize dst) (firstLive src count) dst.buf dst.head).2,
              dst.tail⟩ : Ringbuf) with
            tail := ringbuf_smash_tail
              ⟨(writeBytes (bufferSize dst) (firstLive src count) dst.buf dst.head).1,
                (writeBytes (bufferSize dst) (firstLive src count) dst.buf dst.head).2,
                dst.tail⟩ },
            (writeBytes (bufferSize dst) (firstLive src count) dst.buf dst.head).2)
        else
          (⟨(writeBytes (bufferSize dst) (firstLive src count) dst.buf dst.head).1,
            (writeBytes (bufferSize dst) (firstLive src count) dst.buf dst.head).2,
            dst.tail⟩,
            (writeBytes (bufferSize dst) (firstLive src count) dst.buf dst.head).2)) := by
    unfold ringbuf_memcpy_into
    dsimp only
    rw [memcpy_into_aux_eq (bufferSize dst) (firstLive src count).length dst.buf
      dst.head (firstLive src count) rfl hdh le_rfl, hfl]
    by_cases hov : count > ringbuf_bytes_free dst
    · simp only [if_pos hov]
    · simp only [if_neg hov]
  have hcopy : ringbuf_copy dst src count
      = ((ringbuf_memcpy_into dst (firstLive src count)).1,
          ⟨src.buf, src.head, (src.tail + count) % bufferSize src⟩,
          some (ringbuf_memcpy_into dst (firstLive src count)).1.head) := by
    unfold ringbuf_copy
    rw [if_neg (by omega)]
    dsimp only
    rw [copy_aux_eq (bufferSize src) (bufferSize dst) count src.buf src.tail
      dst.buf dst.head count rfl hst rfl hdh le_rfl]
    rw [hmapeq, htail2, hinto]
    by_cases hov : count > ringbuf_bytes_free dst
    · simp only [if_pos hov]
    · simp only [if_neg hov]
  refine ⟨hcopy, used_tail_advance src count ⟨hss2, hsh, hst⟩ hc, ?_⟩
  intro hov
  rw [hcopy]
  dsimp only
  rw [hinto, if_pos hov]
  dsimp only
  unfold ringbuf_is_full
  rw [free_smash _ _ _ (by
    have h1 : (writeBytes (bufferSize dst) (firstLive src count) dst.buf dst.head).1.length
        = dst.buf.length := writeBytes_length _ _ _ _
    have h2 : (writeBytes (bufferSize dst) (firstLive src count) dst.buf dst.head).2
        < bufferSize dst := writeBytes_head_lt _ _ _ _ hdh
    have h3 : bufferSize dst = dst.buf.length := rfl
    omega)]
  rfl

/-- C8 witness: one byte transferred between two concrete size-3 buffers. -/
theorem claim_C8_copy_is_into_of_live_witness :
    ringbuf_copy ⟨[0, 0, 0], 0, 0⟩ ⟨[7, 8, 9], 2, 0⟩ 1
      = ((ringbuf_memcpy_into ⟨[0, 0, 0], 0, 0⟩ (firstLive ⟨[7, 8, 9], 2, 0⟩ 1)).1,
          ⟨[7, 8, 9], 2, (0 + 1) % bufferSize ⟨[7, 8, 9], 2, 0⟩⟩,
          some (ringbuf_memcpy_into ⟨[0, 0, 0], 0, 0⟩
            (firstLive ⟨[7, 8, 9], 2, 0⟩ 1)).1.head)
    ∧ ringbuf_bytes_used ⟨[7, 8, 9], 2, (0 + 1) % bufferSize ⟨[7, 8, 9], 2, 0⟩⟩
        = ringbuf_bytes_used ⟨[7, 8, 9], 2, 0⟩ - 1
    ∧ (1 > ringbuf_bytes_free ⟨[0, 0, 0], 0, 0⟩ →
        ringbuf_is_full (ringbuf_copy ⟨[0, 0, 0], 0, 0⟩ ⟨[7, 8, 9], 2, 0⟩ 1).1 = true) :=
  claim_C8_copy_is_into_of_live ⟨[0, 0, 0], 0, 0⟩ ⟨[7, 8, 9], 2, 0⟩ 1
    ⟨by decide, by decide, by decide⟩ ⟨by decide, by decide, by decide⟩ (by decide)

/-- C1 witness: round trip of two bytes through a freshly reset size-3
buffer. -/
theorem claim_C1_roundtrip_witness :
    (ringbuf_memcpy_from [0, 0, 0]
        (ringbuf_memcpy_into (ringbuf_init ⟨[9, 9, 9], 1, 2⟩) [4, 5]).1
        [4, 5].length).1.take [4, 5].length = [4, 5]
    ∧ ringbuf_is_empty (ringbuf_memcpy_from [0, 0, 0]
        (ringbuf_memcpy_into (ringbuf_init ⟨[9, 9, 9], 1, 2⟩) [4, 5]).1
        [4, 5].length).2.1 = true :=
  claim_C1_roundtrip ⟨[9, 9, 9], 1, 2⟩ [4, 5] [0, 0, 0] (by decide) (by decide)

lemma scanRun_some (buf : List Nat) (c : Nat) (start len i : Nat)
    (h : scanRun buf c start len = some i) :
    start ≤ i ∧ i < start + len ∧ buf.getD i 0 = c
      ∧ ∀ j, start ≤ j → j < i → buf.getD j 0 ≠ c := by
  induction len generalizing start with
  | zero => simp [scanRun] at h
  | succ len ih =>
    rw [scanRun] at h
    by_cases hc : buf.getD start 0 = c
    · rw [if_pos hc] at h
      injection h with h
      subst h
      exact ⟨le_rfl, by omega, hc, fun j hj1 hj2 => absurd hj1 (by omega)⟩
    · rw [if_neg hc] at h
      obtain ⟨h1, h2, h3, h4⟩ := ih (start + 1) h
      refine ⟨by omega, by omega, h3, ?_⟩
      intro j hj1 hj2
      by_cases hj : j = start
      · subst hj
        exact hc
      · exact h4 j (by omega) hj2

lemma scanRun_none (buf : List Nat) (c : Nat) (start len : Nat)
    (h : scanRun buf c start len = none) :
    ∀ j, start ≤ j → j < start + len → buf.getD j 0 ≠ c := by
  induction len generalizing start with
  | zero =>
    intro j h1 h2
    omega
  | succ len ih =>
    rw [scanRun] at h
    by_cases hc : buf.getD start 0 = c
    · rw [if_pos hc] at h
      exact absurd h (by simp)
    · rw [if_neg hc] at h
      intro j hj1 hj2
      by_cases hj : j = start
      · subst hj
        exact hc
      · exact ih (start + 1) h j (by omega) (by omega)

lemma liveByte_phys (rb : Ringbuf) (offset j : Nat)
    (hj : (rb.tail + offset) % bufferSize rb + j < bufferSize rb) :
    liveByte rb (offset + j)
      = rb.buf.getD ((rb.tail + offset) % bufferSize rb + j) 0 := by
  unfold liveByte
  congr 1
  rw [← Nat.add_assoc]
  conv_lhs => rw [← Nat.mod_add_mod]
  rw [Nat.mod_eq_of_lt hj]

lemma findchrAux_spec (rb : Ringbuf) (c : Nat) (hw : Wellformed rb) :
    ∀ fuel offset, ringbuf_bytes_used rb - offset < fuel →
      offset < ringbuf_bytes_used rb →
      (findchrAux rb c offset fuel = ringbuf_bytes_used rb
          ∧ ∀ i, offset ≤ i → i < ringbuf_bytes_used rb → liveByte rb i ≠ c)
      ∨ (offset ≤ findchrAux rb c offset fuel
          ∧ findchrAux rb c offset fuel < ringbuf_bytes_used rb
          ∧ liveByte rb (findchrAux rb c offset fuel) = c
          ∧ ∀ i, offset ≤ i → i < findchrAux rb c offset fuel →
              liveByte rb i ≠ c) := by
  intro fuel
  induction fuel with
  | zero =>
    intro offset h1 h2
    omega
  | succ fuel ih =>
    intro offset hfuel hoff
    have hszb : bufferSize rb = rb.buf.length := rfl
    have hsz : 0 < bufferSize rb := by
      obtain ⟨ha, hb, hc2⟩ := hw
      omega
    have hstart_lt : (rb.tail + offset) % bufferSize rb < bufferSize rb :=
      Nat.mod_lt _ hsz
    have hbody : findchrAux rb c offset (fuel + 1)
        = (match scanRun rb.buf c ((rb.tail + offset) % bufferSize rb)
            (min (bufferSize rb - (rb.tail + offset) % bufferSize rb)
              (ringbuf_bytes_used rb - offset)) with
          | some i => offset + (i - (rb.tail + offset) % bufferSize rb)
          | none => findchrAux rb c
              (offset + min (bufferSize rb - (rb.tail + offset) % bufferSize rb)
                (ringbuf_bytes_used rb - offset)) fuel) := by
      rw [findchrAux]
      dsimp only
      rw [if_neg (by omega)]
    have hrun_pos : 0 < min (bufferSize rb - (rb.tail + offset) % bufferSize rb)
        (ringbuf_bytes_used rb - offset) := by
      omega
    have hrun_le : min (bufferSize rb - (rb.tail + offset) % bufferSize rb)
        (ringbuf_bytes_used rb - offset) ≤ ringbuf_bytes_used rb - offset :=
      Nat.min_le_right _ _
    have hrun_run : min (bufferSize rb - (rb.tail + offset) % bufferSize rb)
        (ringbuf_bytes_used rb - offset)
        ≤ bufferSize rb - (rb.tail + offset) % bufferSize rb :=
      Nat.min_le_left _ _
    cases hscan : scanRun rb.buf c ((rb.tail + offset) % bufferSize rb)
        (min (bufferSize rb - (rb.tail + offset) % bufferSize rb)
          (ringbuf_bytes_used rb - offset)) with
    | some i =>
      have hval : findchrAux rb c offset (fuel + 1)
          = offset + (i - (rb.tail + offset) % bufferSize rb) := by
        rw [hbody, hscan]
      obtain ⟨h1, h2, h3, h4⟩ := scanRun_some _ _ _ _ _ hscan
      right
      rw [hval]
      refine ⟨by omega, by omega, ?_, ?_⟩
      · rw [liveByte_phys rb offset (i - (rb.tail + offset) % bufferSize rb)
          (by omega)]
        have hi : (rb.tail + offset) % bufferSize rb
            + (i - (rb.tail + offset) % bufferSize rb) = i := by omega
        rw [hi]
        exact h3
      · intro j hj1 hj2
        have hjd : j = offset + (j - offset) := by omega
        rw [hjd, liveByte_phys rb offset (j - offset) (by omega)]
        exact h4 ((rb.tail + offset) % bufferSize rb + (j - offset))
          (by omega) (by omega)
    | none =>
      have hval : findchrAux rb c offset (fuel + 1)
          = findchrAux rb c
              (offset + min (bufferSize rb - (rb.tail + offset) % bufferSize rb)
                (ringbuf_bytes_used rb - offset)) fuel := by
        rw [hbody, hscan]
      have hnone := scanRun_none _ _ _ _ hscan
      have hseg : ∀ i, offset ≤ i →
          i < offset + min (bufferSize rb - (rb.tail + offset) % bufferSize rb)
            (ringbuf_bytes_used rb - offset) →
          liveByte rb i ≠ c := by
        intro i hi1 hi2
        have hid : i = offset + (i - offset) := by omega
        rw [hid, liveByte_phys rb offset (i - offset) (by omega)]
        exact hnone ((rb.tail + offset) % bufferSize rb + (i - offset))
          (by omega) (by omega)
      rw [hval]
      by_cases hend : offset + min (bufferSize rb - (rb.tail + offset) % bufferSize rb)
          (ringbuf_bytes_used rb - offset) < ringbuf_bytes_used rb
      · rcases ih _ (by omega) hend with ⟨heq, hall⟩ | ⟨hge, hlt, hbyte, hmin⟩
        · left
          refine ⟨heq, ?_⟩
          intro i hi1 hi2
          by_cases hcase : i < offset
              + min (bufferSize rb - (rb.tail + offset) % bufferSize rb)
                (ringbuf_bytes_used rb - offset)
          · exact hseg i hi1 hcase
          · exact hall i (by omega) hi2
        · right
          refine ⟨by omega, hlt, hbyte, ?_⟩
          intro i hi1 hi2
          by_cases hcase : i < offset
              + min (bufferSize rb - (rb.tail + offset) % bufferSize rb)
                (ringbuf_bytes_used rb - offset)
          · exact hseg i hi1 hcase
          · exact hmin i (by omega) hi2
      · have hterm : findchrAux rb c
            (offset + min (bufferSize rb - (rb.tail + offset) % bufferSize rb)
              (ringbuf_bytes_used rb - offset)) fuel = ringbuf_bytes_used rb := by
          cases fuel with
          | zero => rw [findchrAux]
          | succ fuel2 =>
            rw [findchrAux]
            dsimp only
            rw [if_pos (by omega)]
        rw [hterm]
        left
        refine ⟨rfl, ?_⟩
        intro i hi1 hi2
        exact hseg i hi1 (by omega)

/-- C9: `ringbuf_findchr` (modelled from the spec, its implementation not
being among the sources) returns `bytes_used()` immediately when
`offset >= bytes_used()`; otherwise it returns the logical offset from the
tail of the first occurrence of `c` among the live bytes at logical
offsets in `[offset, bytes_used())`, or `bytes_used()` when no such
occurrence exists — its result is fully determined by the live bytes, so
it never depends on stale bytes beyond the live region. -/
theorem claim_C9_findchr_live_scan (rb : Ringbuf) (c offset : Nat)
    (hw : Wellformed rb) :
    (ringbuf_bytes_used rb ≤ offset →
      ringbuf_findchr rb c offset = ringbuf_bytes_used rb)
    ∧ (offset < ringbuf_bytes_used rb →
      (ringbuf_findchr rb c offset = ringbuf_bytes_used rb
          ∧ ∀ i, offset ≤ i → i < ringbuf_bytes_used rb → liveByte rb i ≠ c)
      ∨ (offset ≤ ringbuf_findchr rb c offset
          ∧ ringbuf_findchr rb c offset < ringbuf_bytes_used rb
          ∧ liveByte rb (ringbuf_findchr rb c offset) = c
          ∧ ∀ i, offset ≤ i → i < ringbuf_findchr rb c offset →
              liveByte rb i ≠ c)) := by
  constructor
  · intro hle
    unfold ringbuf_findchr
    rw [findchrAux]
    dsimp only
    rw [if_pos hle]
  · intro hlt
    unfold ringbuf_findchr
    exact findchrAux_spec rb c hw (ringbuf_bytes_used rb + 1) offset (by omega) hlt

/-- C9 witness: searching a concrete buffer with three live bytes. -/
theorem claim_C9_findchr_live_scan_witness :
    (ringbuf_bytes_used ⟨[10, 20, 30, 40], 3, 0⟩ ≤ 0 →
      ringbuf_findchr ⟨[10, 20, 30, 40], 3, 0⟩ 20 0
        = ringbuf_bytes_used ⟨[10, 20, 30, 40], 3, 0⟩)
    ∧ (0 < ringbuf_bytes_used ⟨[10, 20, 30, 40], 3, 0⟩ →
      (ringbuf_findchr ⟨[10, 20, 30, 40], 3, 0⟩ 20 0
          = ringbuf_bytes_used ⟨[10, 20, 30, 40], 3, 0⟩
        ∧ ∀ i, 0 ≤ i → i < ringbuf_bytes_used ⟨[10, 20, 30, 40], 3, 0⟩ →
            liveByte ⟨[10, 20, 30, 40], 3, 0⟩ i ≠ 20)
      ∨ (0 ≤ ringbuf_findchr ⟨[10, 20, 30, 40], 3, 0⟩ 20 0
          ∧ ringbuf_findchr ⟨[10, 20, 30, 40], 3, 0⟩ 20 0
            < ringbuf_bytes_used ⟨[10, 20, 30, 40], 3, 0⟩
          ∧ liveByte ⟨[10, 20, 30, 40], 3, 0⟩
              (ringbuf_findchr ⟨[10, 20, 30, 40], 3, 0⟩ 20 0) = 20
          ∧ ∀ i, 0 ≤ i → i < ringbuf_findchr ⟨[10, 20, 30, 40], 3, 0⟩ 20 0 →
              liveByte ⟨[10, 20, 30, 40], 3, 0⟩ i ≠ 20)) :=
  claim_C9_findchr_live_scan ⟨[10, 20, 30, 40], 3, 0⟩ 20 0
    ⟨by decide, by decide, by decide⟩
